import Mathlib

/-!
Verification of the bounded dual-selection core of the top10rust repository.

The Rust source keeps, in bounded memory, the N largest and N smallest price
differences seen in a CSV stream, together with interned, reference-counted
description strings:

* `src/record_pool.rs` — `RecordPool` (`SelectionPool` in the spec): a
  fixed-capacity map from difference to description code with cached
  `smallest`/`largest` bounds, a `fits` test, insertion-with-eviction, and
  ordered iteration.
* `src/data_store.rs` — `DataStore` (`ChangeTracker` + `DescriptionRegistry`):
  two pools (`top`, `bottom`), a bidirectional description/code map, a
  per-code use count, and the ingestion routine `insert`.

The embedding below mirrors the source: the exact decimal type `Decimal` is
embedded into `ℚ`, `HashMap`s become association lists (their observable
behaviour — lookup, replace-on-insert, key set, length — is preserved), and
`&mut self` methods become state-passing functions.  The Rust code sorts the
key vector and takes the first/last element; the embedding sorts with
insertion sort and takes the head/last of the sorted list.
-/

namespace Top10

/-- Lookup in an association list: the value of the first pair whose key
matches, as `HashMap::get`. -/
def assocLookup {α β : Type} [DecidableEq α] : List (α × β) → α → Option β
  | [], _ => none
  | p :: rest, k => if p.1 = k then some p.2 else assocLookup rest k

/-- Insert into an association list, replacing the first pair with the same
key if present, as `HashMap::insert`. -/
def assocInsert {α β : Type} [DecidableEq α] : List (α × β) → α → β → List (α × β)
  | [], k, v => [(k, v)]
  | p :: rest, k, v => if p.1 = k then (k, v) :: rest else p :: assocInsert rest k v

/-- Remove all pairs with the given key, as `HashMap::remove`. -/
def assocErase {α β : Type} [DecidableEq α] (l : List (α × β)) (k : α) : List (α × β) :=
  l.filter (fun p => decide (¬ p.1 = k))

/-- The key list of an association list. -/
def keys {α β : Type} (l : List (α × β)) : List α := l.map Prod.fst

/-- Increment the value stored at a key if the key is present; otherwise do
nothing (the source's `if let Some(count) = map.get_mut(..) { *count += 1 }`). -/
def bumpCount : List (ℕ × ℕ) → ℕ → List (ℕ × ℕ)
  | [], _ => []
  | p :: rest, k => if p.1 = k then (p.1, p.2 + 1) :: rest else p :: bumpCount rest k

/-- Overwriting insert of a bidirectional map (`bimap::BiMap::insert`): any
pair sharing the left or the right component is removed first. -/
def bimapInsert (l : List (String × ℕ)) (d : String) (c : ℕ) : List (String × ℕ) :=
  (l.filter (fun p => decide (¬ (p.1 = d ∨ p.2 = c)))) ++ [(d, c)]

/-- Minimum of a rational list, `0` on the empty list (used only where the
source list is provably nonempty). -/
def minD : List ℚ → ℚ
  | [] => 0
  | x :: xs => xs.foldl min x

/-- Maximum of a rational list, `0` on the empty list. -/
def maxD : List ℚ → ℚ
  | [] => 0
  | x :: xs => xs.foldl max x

/-- Ascending sort of the key vector, as the source's `keys.sort()`. -/
def sortKeys (l : List ℚ) : List ℚ := List.insertionSort (fun a b => a ≤ b) l

/-! Basic lemmas about the association-list helpers. -/

theorem keys_nil {α β : Type} : keys ([] : List (α × β)) = [] := rfl

theorem keys_cons {α β : Type} (p : α × β) (l : List (α × β)) :
    keys (p :: l) = p.1 :: keys l := rfl

theorem assocLookup_eq_none {α β : Type} [DecidableEq α] (l : List (α × β)) (k : α) :
    assocLookup l k = none ↔ k ∉ keys l := by
  induction l with
  | nil => simp [assocLookup, keys_nil]
  | cons p rest ih =>
    by_cases h : p.1 = k
    · simp [assocLookup, keys_cons, h]
    · simp only [assocLookup, if_neg h, keys_cons, List.mem_cons, ih]
      constructor
      · rintro hk (rfl | hmem)
        · exact h rfl
        · exact hk hmem
      · intro hk hmem
        exact hk (Or.inr hmem)

theorem mem_of_assocLookup {α β : Type} [DecidableEq α] {l : List (α × β)} {k : α} {v : β}
    (h : assocLookup l k = some v) : (k, v) ∈ l := by
  induction l with
  | nil => simp [assocLookup] at h
  | cons p rest ih =>
    by_cases hp : p.1 = k
    · simp only [assocLookup, if_pos hp] at h
      have hv : p.2 = v := Option.some.inj h
      have hpk : p = (k, v) := by
        cases p with
        | mk a b =>
          simp only [Prod.mk.injEq]
          exact ⟨hp, hv⟩
      rw [hpk]
      exact List.mem_cons_self _ _
    · simp only [assocLookup, if_neg hp] at h
      exact List.mem_cons_of_mem _ (ih h)

theorem keys_assocInsert_mem {α β : Type} [DecidableEq α] (l : List (α × β)) (k : α) (v : β)
    (h : k ∈ keys l) : keys (assocInsert l k v) = keys l := by
  induction l with
  | nil => simp [keys_nil] at h
  | cons p rest ih =>
    by_cases hp : p.1 = k
    · simp [assocInsert, if_pos hp, keys_cons, hp]
    · have hk : k ∈ keys rest := by
        rcases (List.mem_cons.mp (by simpa [keys_cons] using h)) with h1 | h1
        · exact absurd h1.symm hp
        · exact h1
      simp [assocInsert, if_neg hp, keys_cons, ih hk]

theorem keys_assocInsert_not_mem {α β : Type} [DecidableEq α] (l : List (α × β)) (k : α) (v : β)
    (h : k ∉ keys l) : keys (assocInsert l k v) = keys l ++ [k] := by
  induction l with
  | nil => simp [assocInsert, keys_nil, keys_cons]
  | cons p rest ih =>
    have hp : ¬ p.1 = k := by
      intro hk
      exact h (by simp [keys_cons, hk])
    have hrest : k ∉ keys rest := fun hk => h (by simp [keys_cons, hk])
    simp [assocInsert, if_neg hp, keys_cons, ih hrest]

theorem length_keys {α β : Type} (l : List (α × β)) : (keys l).length = l.length :=
  List.length_map _ _

theorem length_assocInsert_le {α β : Type} [DecidableEq α] (l : List (α × β)) (k : α) (v : β) :
    (assocInsert l k v).length ≤ l.length + 1 := by
  by_cases h : k ∈ keys l
  · have := keys_assocInsert_mem l k v h
    have hlen : (assocInsert l k v).length = l.length := by
      rw [← length_keys, this, length_keys]
    omega
  · have := keys_assocInsert_not_mem l k v h
    have hlen : (assocInsert l k v).length = l.length + 1 := by
      rw [← length_keys, this]
      simp [length_keys]
    omega

theorem length_assocInsert_mem {α β : Type} [DecidableEq α] (l : List (α × β)) (k : α) (v : β)
    (h : k ∈ keys l) : (assocInsert l k v).length = l.length := by
  rw [← length_keys, keys_assocInsert_mem l k v h, length_keys]

theorem length_assocInsert_not_mem {α β : Type} [DecidableEq α] (l : List (α × β)) (k : α) (v : β)
    (h : k ∉ keys l) : (assocInsert l k v).length = l.length + 1 := by
  rw [← length_keys, keys_assocInsert_not_mem l k v h]
  simp [length_keys]

theorem nodup_keys_assocInsert {α β : Type} [DecidableEq α] (l : List (α × β)) (k : α) (v : β)
    (h : (keys l).Nodup) : (keys (assocInsert l k v)).Nodup := by
  by_cases hk : k ∈ keys l
  · rw [keys_assocInsert_mem l k v hk]; exact h
  · rw [keys_assocInsert_not_mem l k v hk]
    simpa using List.Nodup.append h (List.nodup_singleton k) (by simpa using hk)

theorem keys_filter {α β : Type} (f : α → Bool) (l : List (α × β)) :
    keys (l.filter (fun p => f p.1)) = (keys l).filter f := by
  induction l with
  | nil => simp [keys_nil]
  | cons p rest ih =>
    rw [List.filter_cons, keys_cons, List.filter_cons]
    cases hf : f p.1 with
    | false => simpa [hf] using ih
    | true =>
      rw [if_pos (by simp [hf]), if_pos (by simp [hf]), keys_cons, ih]

theorem keys_assocErase {α β : Type} [DecidableEq α] (l : List (α × β)) (k : α) :
    keys (assocErase l k) = (keys l).filter (fun a => decide (¬ a = k)) :=
  keys_filter (fun a => decide (¬ a = k)) l

theorem nodup_keys_assocErase {α β : Type} [DecidableEq α] (l : List (α × β)) (k : α)
    (h : (keys l).Nodup) : (keys (assocErase l k)).Nodup := by
  rw [keys_assocErase]
  exact h.filter _

theorem length_filter_ne_of_nodup {α : Type} [DecidableEq α] (l : List α) (a : α)
    (hnd : l.Nodup) (ha : a ∈ l) :
    (l.filter (fun x => decide (¬ x = a))).length + 1 = l.length := by
  induction l with
  | nil => simp at ha
  | cons b rest ih =>
    rcases List.mem_cons.mp ha with rfl | hmem
    · have hnotin : a ∉ rest := (List.nodup_cons.mp hnd).1
      have hself : rest.filter (fun x => decide (¬ x = a)) = rest := by
        apply List.filter_eq_self.mpr
        intro x hx
        have : ¬ x = a := fun hxa => hnotin (hxa ▸ hx)
        simpa using this
      rw [List.filter_cons, if_neg (by simp)]
      rw [hself, List.length_cons]
    · have hba : ¬ b = a := by
        intro h
        exact (List.nodup_cons.mp hnd).1 (h ▸ hmem)
      have hrec := ih (List.nodup_cons.mp hnd).2 hmem
      rw [List.filter_cons, if_pos (by simpa using hba), List.length_cons, List.length_cons]
      omega

theorem length_assocErase_of_mem {α β : Type} [DecidableEq α] (l : List (α × β)) (k : α)
    (hnd : (keys l).Nodup) (hk : k ∈ keys l) :
    (assocErase l k).length + 1 = l.length := by
  have h1 : (keys (assocErase l k)).length + 1 = (keys l).length := by
    rw [keys_assocErase]
    exact length_filter_ne_of_nodup (keys l) k hnd hk
  rw [length_keys, length_keys] at h1
  exact h1

theorem assocLookup_assocInsert_self {α β : Type} [DecidableEq α] (l : List (α × β))
    (k : α) (v : β) : assocLookup (assocInsert l k v) k = some v := by
  induction l with
  | nil => simp [assocInsert, assocLookup]
  | cons p rest ih =>
    by_cases hp : p.1 = k
    · simp [assocInsert, hp, assocLookup]
    · simp [assocInsert, hp, assocLookup, ih]

theorem assocInsert_not_mem_eq_append {α β : Type} [DecidableEq α] (l : List (α × β))
    (k : α) (v : β) (h : k ∉ keys l) : assocInsert l k v = l ++ [(k, v)] := by
  induction l with
  | nil => simp [assocInsert]
  | cons p rest ih =>
    have hp : ¬ p.1 = k := fun hk => h (by simp [keys_cons, hk])
    have hrest : k ∉ keys rest := fun hk => h (by simp [keys_cons, hk])
    simp [assocInsert, if_neg hp, ih hrest]

/-! Lemmas about sums of counter association lists (used for the registry
use-count accounting). -/

/-- Total of all counts stored in a counter list. -/
def countSum (l : List (ℕ × ℕ)) : ℕ := (l.map Prod.snd).sum

theorem countSum_nil : countSum [] = 0 := rfl

theorem countSum_cons (p : ℕ × ℕ) (l : List (ℕ × ℕ)) :
    countSum (p :: l) = p.2 + countSum l := by
  simp [countSum]

theorem countSum_append (l1 l2 : List (ℕ × ℕ)) :
    countSum (l1 ++ l2) = countSum l1 + countSum l2 := by
  simp [countSum]

theorem keys_bumpCount (l : List (ℕ × ℕ)) (k : ℕ) : keys (bumpCount l k) = keys l := by
  induction l with
  | nil => rfl
  | cons p rest ih =>
    by_cases hp : p.1 = k
    · simp [bumpCount, hp, keys_cons]
    · simp [bumpCount, hp, keys_cons, ih]

theorem countSum_bumpCount_mem (l : List (ℕ × ℕ)) (k : ℕ) (h : k ∈ keys l) :
    countSum (bumpCount l k) = countSum l + 1 := by
  induction l with
  | nil => simp [keys_nil] at h
  | cons p rest ih =>
    by_cases hp : p.1 = k
    · simp only [bumpCount, if_pos hp, countSum_cons]
      omega
    · have hk : k ∈ keys rest := by
        rcases List.mem_cons.mp (by simpa [keys_cons] using h) with h1 | h1
        · exact absurd h1.symm hp
        · exact h1
      simp only [bumpCount, if_neg hp, countSum_cons, ih hk]
      omega

theorem assocLookup_bumpCount_self (l : List (ℕ × ℕ)) (k v : ℕ)
    (h : assocLookup l k = some v) :
    assocLookup (bumpCount l k) k = some (v + 1) := by
  induction l with
  | nil => simp [assocLookup] at h
  | cons p rest ih =>
    by_cases hp : p.1 = k
    · simp only [assocLookup, if_pos hp] at h
      have hv : p.2 = v := Option.some.inj h
      simp [bumpCount, if_pos hp, assocLookup, hp, hv]
    · simp only [assocLookup, if_neg hp] at h
      simp [bumpCount, if_neg hp, assocLookup, hp, ih h]

theorem countSum_assocInsert_lookup (l : List (ℕ × ℕ)) (k w v : ℕ)
    (h : assocLookup l k = some v) :
    countSum (assocInsert l k w) + v = countSum l + w := by
  induction l with
  | nil => simp [assocLookup] at h
  | cons p rest ih =>
    by_cases hp : p.1 = k
    · simp only [assocLookup, if_pos hp] at h
      have hv : p.2 = v := Option.some.inj h
      simp only [assocInsert, if_pos hp, countSum_cons, hv]
      omega
    · simp only [assocLookup, if_neg hp] at h
      simp only [assocInsert, if_neg hp, countSum_cons]
      have := ih h
      omega

theorem mem_keys_of_mem {α β : Type} {p : α × β} {l : List (α × β)} (h : p ∈ l) :
    p.1 ∈ keys l :=
  List.mem_map_of_mem Prod.fst h

theorem countSum_assocErase_lookup (l : List (ℕ × ℕ)) (k v : ℕ)
    (hnd : (keys l).Nodup) (h : assocLookup l k = some v) :
    countSum (assocErase l k) + v = countSum l := by
  induction l with
  | nil => simp [assocLookup] at h
  | cons p rest ih =>
    have hnd2 := (List.nodup_cons.mp (by simpa [keys_cons] using hnd))
    by_cases hp : p.1 = k
    · simp only [assocLookup, if_pos hp] at h
      have hv : p.2 = v := Option.some.inj h
      have hknotin : k ∉ keys rest := hp ▸ hnd2.1
      have hself : List.filter (fun q => decide (¬ q.1 = k)) rest = rest := by
        apply List.filter_eq_self.mpr
        intro x hx
        have hxk : ¬ x.1 = k := by
          intro hxk
          apply hknotin
          rw [← hxk]
          exact mem_keys_of_mem hx
        simpa using hxk
      show countSum (List.filter (fun q => decide (¬ q.1 = k)) (p :: rest)) + v
          = countSum (p :: rest)
      rw [List.filter_cons, if_neg (by simp [hp]), hself, countSum_cons, hv]
      omega
    · simp only [assocLookup, if_neg hp] at h
      have hrec := ih hnd2.2 h
      show countSum (List.filter (fun q => decide (¬ q.1 = k)) (p :: rest)) + v
          = countSum (p :: rest)
      rw [List.filter_cons, if_pos (by simpa using hp), countSum_cons, countSum_cons]
      simp only [assocErase] at hrec
      omega

/-! Lemmas about minima, maxima and the ascending sort of the key vector. -/

theorem foldl_min_le_init (xs : List ℚ) : ∀ a : ℚ, xs.foldl min a ≤ a := by
  induction xs with
  | nil => intro a; simp
  | cons x rest ih =>
    intro a
    calc (x :: rest).foldl min a = rest.foldl min (min a x) := rfl
      _ ≤ min a x := ih (min a x)
      _ ≤ a := min_le_left a x

theorem foldl_min_le_mem (xs : List ℚ) : ∀ a x : ℚ, x ∈ xs → xs.foldl min a ≤ x := by
  induction xs with
  | nil => intro a x hx; simp at hx
  | cons y rest ih =>
    intro a x hx
    rcases List.mem_cons.mp hx with rfl | hmem
    · calc (x :: rest).foldl min a = rest.foldl min (min a x) := rfl
        _ ≤ min a x := foldl_min_le_init rest (min a x)
        _ ≤ x := min_le_right a x
    · exact ih (min a y) x hmem

theorem foldl_min_mem (xs : List ℚ) : ∀ a : ℚ, xs.foldl min a = a ∨ xs.foldl min a ∈ xs := by
  induction xs with
  | nil => intro a; left; rfl
  | cons x rest ih =>
    intro a
    rcases ih (min a x) with h | h
    · rcases min_choice a x with hc | hc
      · left
        calc (x :: rest).foldl min a = rest.foldl min (min a x) := rfl
          _ = min a x := h
          _ = a := hc
      · right
        have hx : (x :: rest).foldl min a = x := by
          calc (x :: rest).foldl min a = rest.foldl min (min a x) := rfl
            _ = min a x := h
            _ = x := hc
        rw [hx]
        exact List.mem_cons_self _ _
    · right
      exact List.mem_cons_of_mem _ h

theorem minD_le (l : List ℚ) (x : ℚ) (hx : x ∈ l) : minD l ≤ x := by
  cases l with
  | nil => simp at hx
  | cons y rest =>
    rcases List.mem_cons.mp hx with rfl | hmem
    · exact foldl_min_le_init rest x
    · exact foldl_min_le_mem rest y x hmem

theorem minD_mem (l : List ℚ) (h : l ≠ []) : minD l ∈ l := by
  cases l with
  | nil => exact absurd rfl h
  | cons y rest =>
    rcases foldl_min_mem rest y with h1 | h1
    · rw [minD, h1]; exact List.mem_cons_self _ _
    · rw [minD]; exact List.mem_cons_of_mem _ h1

theorem foldl_max_ge_init (xs : List ℚ) : ∀ a : ℚ, a ≤ xs.foldl max a := by
  induction xs with
  | nil => intro a; simp
  | cons x rest ih =>
    intro a
    calc a ≤ max a x := le_max_left a x
      _ ≤ rest.foldl max (max a x) := ih (max a x)
      _ = (x :: rest).foldl max a := rfl

theorem foldl_max_ge_mem (xs : List ℚ) : ∀ a x : ℚ, x ∈ xs → x ≤ xs.foldl max a := by
  induction xs with
  | nil => intro a x hx; simp at hx
  | cons y rest ih =>
    intro a x hx
    rcases List.mem_cons.mp hx with rfl | hmem
    · calc x ≤ max a x := le_max_right a x
        _ ≤ rest.foldl max (max a x) := foldl_max_ge_init rest (max a x)
        _ = (x :: rest).foldl max a := rfl
    · exact ih (max a y) x hmem

theorem foldl_max_mem (xs : List ℚ) : ∀ a : ℚ, xs.foldl max a = a ∨ xs.foldl max a ∈ xs := by
  induction xs with
  | nil => intro a; left; rfl
  | cons x rest ih =>
    intro a
    rcases ih (max a x) with h | h
    · rcases max_choice a x with hc | hc
      · left
        calc (x :: rest).foldl max a = rest.foldl max (max a x) := rfl
          _ = max a x := h
          _ = a := hc
      · right
        have : (x :: rest).foldl max a = x := by
          calc (x :: rest).foldl max a = rest.foldl max (max a x) := rfl
            _ = max a x := h
            _ = x := hc
        rw [this]
        exact List.mem_cons_self _ _
    · right
      exact List.mem_cons_of_mem _ h

theorem le_maxD (l : List ℚ) (x : ℚ) (hx : x ∈ l) : x ≤ maxD l := by
  cases l with
  | nil => simp at hx
  | cons y rest =>
    rcases List.mem_cons.mp hx with rfl | hmem
    · exact foldl_max_ge_init rest x
    · exact foldl_max_ge_mem rest y x hmem

theorem maxD_mem (l : List ℚ) (h : l ≠ []) : maxD l ∈ l := by
  cases l with
  | nil => exact absurd rfl h
  | cons y rest =>
    rcases foldl_max_mem rest y with h1 | h1
    · rw [maxD, h1]; exact List.mem_cons_self _ _
    · rw [maxD]; exact List.mem_cons_of_mem _ h1

theorem sortKeys_perm (l : List ℚ) : (sortKeys l).Perm l :=
  List.perm_insertionSort _ l

theorem sortKeys_sorted (l : List ℚ) : (sortKeys l).Sorted (fun a b => a ≤ b) :=
  List.sorted_insertionSort _ l

theorem sortKeys_mem (l : List ℚ) (x : ℚ) : x ∈ sortKeys l ↔ x ∈ l :=
  (sortKeys_perm l).mem_iff

theorem sortKeys_ne_nil (l : List ℚ) (h : l ≠ []) : sortKeys l ≠ [] := by
  intro hnil
  have := (sortKeys_perm l).length_eq
  rw [hnil] at this
  exact h (List.length_eq_zero.mp this.symm)

theorem sorted_head_le (a : ℚ) (t : List ℚ) (hs : (a :: t).Sorted (fun x y => x ≤ y)) :
    ∀ x ∈ a :: t, a ≤ x := by
  intro x hx
  rcases List.mem_cons.mp hx with rfl | hmem
  · exact le_refl x
  · exact (List.sorted_cons.mp hs).1 x hmem

theorem sorted_le_getLast (l : List ℚ) (hs : l.Sorted (fun x y => x ≤ y)) :
    ∀ x ∈ l, x ≤ l.getLast?.getD 0 := by
  induction l with
  | nil => intro x hx; simp at hx
  | cons a t ih =>
    intro x hx
    cases t with
    | nil =>
      rcases List.mem_cons.mp hx with rfl | hmem
      · simp [List.getLast?]
      · simp at hmem
    | cons b t2 =>
      have hlast : (a :: b :: t2).getLast? = (b :: t2).getLast? := by
        simp [List.getLast?_cons_cons]
      rw [hlast]
      have hs2 := (List.sorted_cons.mp hs).2
      rcases List.mem_cons.mp hx with rfl | hmem
      · calc x ≤ b := (List.sorted_cons.mp hs).1 b (List.mem_cons_self _ _)
          _ ≤ (b :: t2).getLast?.getD 0 := ih hs2 b (List.mem_cons_self _ _)
      · exact ih hs2 x hmem

theorem sortKeys_head_eq_minD (l : List ℚ) (h : l ≠ []) :
    (sortKeys l).head?.getD 0 = minD l := by
  rcases hsl : sortKeys l with _ | ⟨a, t⟩
  · exact absurd hsl (sortKeys_ne_nil l h)
  · have hperm := sortKeys_perm l
    rw [hsl] at hperm
    have hsorted := sortKeys_sorted l
    rw [hsl] at hsorted
    have ha_mem : a ∈ l := hperm.mem_iff.mp (List.mem_cons_self _ _)
    have h1 : minD l ≤ a := minD_le l a ha_mem
    have h2 : a ≤ minD l := by
      have hm : minD l ∈ a :: t := hperm.mem_iff.mpr (minD_mem l h)
      exact sorted_head_le a t hsorted (minD l) hm
    simp only [List.head?, Option.getD]
    exact le_antisymm h2 h1

theorem getLast_getD_mem (l : List ℚ) (h : l ≠ []) : l.getLast?.getD 0 ∈ l := by
  rw [List.getLast?_eq_getLast l h]
  simp only [Option.getD_some]
  exact List.getLast_mem _

theorem head_getD_mem (l : List ℚ) (h : l ≠ []) : l.head?.getD 0 ∈ l := by
  cases l with
  | nil => exact absurd rfl h
  | cons a t => simp [List.head?]

theorem sortKeys_getLast_eq_maxD (l : List ℚ) (h : l ≠ []) :
    (sortKeys l).getLast?.getD 0 = maxD l := by
  have hsorted := sortKeys_sorted l
  have hne : sortKeys l ≠ [] := sortKeys_ne_nil l h
  have hmax_mem : maxD l ∈ sortKeys l := (sortKeys_mem l _).mpr (maxD_mem l h)
  have h1 : maxD l ≤ (sortKeys l).getLast?.getD 0 :=
    sorted_le_getLast (sortKeys l) hsorted (maxD l) hmax_mem
  have hlast_mem : (sortKeys l).getLast?.getD 0 ∈ l :=
    (sortKeys_mem l _).mp (getLast_getD_mem (sortKeys l) hne)
  have h2 : (sortKeys l).getLast?.getD 0 ≤ maxD l := le_maxD l _ hlast_mem
  exact le_antisymm h2 h1

/-! Embedding of `src/record_pool.rs`. -/

/-- Enum controlling the ordering accounting of a `RecordPool`
(`PoolType` in `record_pool.rs`). -/
inductive PoolType where
  | Most : PoolType
  | Least : PoolType
deriving DecidableEq

/-- The pool structure of `record_pool.rs`: the difference → code map, the
cached extremes, the capacity and the pool type.  The `HashMap` becomes an
association list with (invariantly) distinct keys. -/
structure RecordPool where
  records : List (ℚ × ℕ)
  largest : ℚ
  smallest : ℚ
  bounds : ℕ
  pool_type : PoolType
deriving DecidableEq

/-- `RecordPool::new`: rejects a zero capacity, otherwise starts empty with
both cached extremes at `Decimal::new(0, 0)`. -/
def RecordPool.new (bounds : ℕ) (pool_type : PoolType) : Except String RecordPool :=
  if bounds = 0 then Except.error "Bounds for RecordPool cannot be 0"
  else Except.ok { records := [], largest := 0, smallest := 0, bounds := bounds,
                   pool_type := pool_type }

/-- `RecordPool::fits`: true when the pool is below capacity; otherwise true
when the difference beats the cached bound on the pool's relevant side, or
when it lies within `[smallest, largest]`. -/
def RecordPool.fits (p : RecordPool) (difference : ℚ) : Bool :=
  if p.records.length < p.bounds then true
  else
    let beats : Bool := match p.pool_type with
      | PoolType.Most => decide (p.largest < difference)
      | PoolType.Least => decide (difference < p.smallest)
    beats || (decide (p.smallest ≤ difference) && decide (difference ≤ p.largest))

/-- `RecordPool::insert`: reject what does not fit; drop an exact duplicate
(same difference, same code); otherwise insert (possibly replacing the code
associated to the difference) and, when the map has grown past `bounds`,
sort the keys, remove the first (for `Most`) or last (for `Least`) key,
recompute `smallest`/`largest` from the remaining sorted keys, and return
the removed pair.  Returns the evicted pair (if any) together with the
updated pool. -/
def RecordPool.insert (p : RecordPool) (difference : ℚ) (description_code : ℕ) :
    Option (ℚ × ℕ) × RecordPool :=
  if p.fits difference then
    if assocLookup p.records difference = some description_code then (none, p)
    else
      let records1 := assocInsert p.records difference description_code
      if p.bounds < records1.length then
        let sorted1 := sortKeys (keys records1)
        let key := match p.pool_type with
          | PoolType.Most => sorted1.head?.getD 0
          | PoolType.Least => sorted1.getLast?.getD 0
        let value := (assocLookup records1 key).getD 0
        let records2 := assocErase records1 key
        let sorted2 := sortKeys (keys records2)
        (some (key, value),
          { p with records := records2,
                   smallest := sorted2.head?.getD 0,
                   largest := sorted2.getLast?.getD 0 })
      else (none, { p with records := records1 })
  else (none, p)

/-- Forward traversal of `RecordPoolIterator`: the keys sorted ascending,
each paired with its stored code. -/
def RecordPool.ascList (p : RecordPool) : List (ℚ × ℕ) :=
  (sortKeys (keys p.records)).map (fun k => (k, (assocLookup p.records k).getD 0))

/-- Reverse traversal (`DoubleEndedIterator::next_back`): walks the sorted
key vector from the last index down to zero. -/
def RecordPool.descList (p : RecordPool) : List (ℚ × ℕ) :=
  p.ascList.reverse

/-! Embedding of `src/data_store.rs`. -/

/-- Field indices of a CSV record, as the constants in `data_store.rs`. -/
def START_PRICE_INDEX : ℕ := 2

/-- Index of the end price field. -/
def END_PRICE_INDEX : ℕ := 3

/-- Index of the description field. -/
def DESCRIPTION_INDEX : ℕ := 0

/-- The `DataStore` of `data_store.rs`: a `Most` pool, a `Least` pool, the
description bimap, the per-code use counts and the next fresh code. -/
structure DataStore where
  top : RecordPool
  bottom : RecordPool
  descriptions : List (String × ℕ)
  code_use : List (ℕ × ℕ)
  next_code : ℕ
deriving DecidableEq

/-- `DataStore::new`: builds both pools with the shared capacity, propagating
a pool-construction error. -/
def DataStore.new (size : ℕ) : Except String DataStore := do
  let top ← RecordPool.new size PoolType.Most
  let bottom ← RecordPool.new size PoolType.Least
  Except.ok { top := top, bottom := bottom, descriptions := [], code_use := [],
              next_code := 0 }

/-- The store `DataStore::new n` produces for `n ≥ 1`, written out. -/
def DataStore.init (n : ℕ) : DataStore :=
  { top := { records := [], largest := 0, smallest := 0, bounds := n,
             pool_type := PoolType.Most },
    bottom := { records := [], largest := 0, smallest := 0, bounds := n,
                pool_type := PoolType.Least },
    descriptions := [], code_use := [], next_code := 0 }

/-- `DataStore::code_for_description`: return the existing code for the
description (bumping its use count) or intern the description under the next
fresh code with use count 1. -/
def DataStore.code_for_description (s : DataStore) (description : String) :
    ℕ × DataStore :=
  match assocLookup s.descriptions description with
  | some code => (code, { s with code_use := bumpCount s.code_use code })
  | none =>
      let new_code := s.next_code
      (new_code,
        { s with
          next_code := new_code + 1,
          descriptions := bimapInsert s.descriptions description new_code,
          code_use := assocInsert s.code_use new_code 1 })

/-- `DataStore::cleanup_descriptions`: decrement the use count of a code and,
when it reaches zero, drop the code from both maps.  A code that is not
tracked is left alone. -/
def DataStore.cleanup_descriptions (s : DataStore) (code : ℕ) : DataStore :=
  match assocLookup s.code_use code with
  | none => s
  | some count =>
      if count - 1 = 0 then
        { s with
          descriptions := s.descriptions.filter (fun p => decide (¬ p.2 = code)),
          code_use := assocErase s.code_use code }
      else { s with code_use := assocInsert s.code_use code (count - 1) }

/-- The mutation performed by `DataStore::insert` once the three fields have
been extracted and parsed (lines 86–131 of `data_store.rs`): offer the
difference to the top pool, transfer a top eviction to the bottom pool or
release its code, and symmetrically for the bottom pool.  Note the source
discards the return value of the transfer insert. -/
def DataStore.recordDiff (s : DataStore) (description : String) (difference : ℚ) :
    DataStore :=
  if s.top.fits difference then
    let r := s.code_for_description description
    let ins := r.2.top.insert difference r.1
    let s2 : DataStore := { r.2 with top := ins.2 }
    match ins.1 with
    | some replaced =>
        if s2.bottom.fits replaced.1 then
          { s2 with bottom := (s2.bottom.insert replaced.1 replaced.2).2 }
        else s2.cleanup_descriptions replaced.2
    | none => s2
  else if s.bottom.fits difference then
    let r := s.code_for_description description
    let ins := r.2.bottom.insert difference r.1
    let s2 : DataStore := { r.2 with bottom := ins.2 }
    match ins.1 with
    | some replaced =>
        if s2.top.fits replaced.1 then
          { s2 with top := (s2.top.insert replaced.1 replaced.2).2 }
        else s2.cleanup_descriptions replaced.2
    | none => s2
  else s

/-- `DataStore::insert` for a CSV record (a list of fields):  extract and
parse the start price, the end price and the description — returning the
error and leaving the store untouched if any step fails — then apply
`recordDiff` on `new_price - start_price`.  The decimal parser of the
`rust_decimal` crate is abstracted as a fallible `parse` argument. -/
def DataStore.insert (parse : String → Option ℚ) (s : DataStore)
    (record : List String) : Except String Unit × DataStore :=
  match record.get? START_PRICE_INDEX with
  | none => (Except.error "Failed to get start price", s)
  | some sp =>
    match parse sp with
    | none => (Except.error "invalid start price", s)
    | some start_price =>
      match record.get? END_PRICE_INDEX with
      | none => (Except.error "Failed to get new price", s)
      | some np =>
        match parse np with
        | none => (Except.error "invalid new price", s)
        | some new_price =>
          match record.get? DESCRIPTION_INDEX with
          | none => (Except.error "Failed to get description code", s)
          | some description =>
            (Except.ok (), s.recordDiff description (new_price - start_price))

/-- A whole ingestion run: fold `recordDiff` over a list of
description/difference pairs. -/
def DataStore.recordAll (s : DataStore) (l : List (String × ℚ)) : DataStore :=
  l.foldl (fun acc p => acc.recordDiff p.1 p.2) s

/-! Structural facts about `RecordPool.insert`. -/

theorem insert_bounds_eq (p : RecordPool) (d : ℚ) (c : ℕ) :
    (p.insert d c).2.bounds = p.bounds := by
  simp only [RecordPool.insert]
  split_ifs <;> rfl

theorem insert_pool_type_eq (p : RecordPool) (d : ℚ) (c : ℕ) :
    (p.insert d c).2.pool_type = p.pool_type := by
  simp only [RecordPool.insert]
  split_ifs <;> rfl

/-- Combined length/key-distinctness case analysis of `RecordPool.insert`:
distinct keys are preserved, the size never exceeds the capacity again if it
did not before, a non-evicting insert grows the map by at most one entry,
and an evicting insert leaves the size unchanged. -/
theorem insert_inv (p : RecordPool) (d : ℚ) (c : ℕ)
    (hnd : (keys p.records).Nodup) (hlen : p.records.length ≤ p.bounds) :
    (keys (p.insert d c).2.records).Nodup ∧
    (p.insert d c).2.records.length ≤ p.bounds ∧
    (p.insert d c).2.records.length ≤ p.records.length + 1 ∧
    (∀ e, (p.insert d c).1 = some e → (p.insert d c).2.records.length = p.records.length) := by
  simp only [RecordPool.insert]
  split_ifs with hf hdup hover <;> dsimp only
  · exact ⟨hnd, hlen, by omega, fun e he => by simp at he⟩
  · -- a genuinely new key pushed the map over `bounds`: one entry is evicted
    have hnd1 : (keys (assocInsert p.records d c)).Nodup :=
      nodup_keys_assocInsert p.records d c hnd
    have hle1 : (assocInsert p.records d c).length ≤ p.records.length + 1 :=
      length_assocInsert_le p.records d c
    have hlen1 : (assocInsert p.records d c).length = p.records.length + 1 := by omega
    have hkeys_ne : keys (assocInsert p.records d c) ≠ [] := by
      intro hnil
      have := length_keys (assocInsert p.records d c)
      rw [hnil] at this
      simp at this
      omega
    have hkey_mem : (match p.pool_type with
        | PoolType.Most => (sortKeys (keys (assocInsert p.records d c))).head?.getD 0
        | PoolType.Least => (sortKeys (keys (assocInsert p.records d c))).getLast?.getD 0)
        ∈ keys (assocInsert p.records d c) := by
      cases p.pool_type with
      | Most =>
        exact (sortKeys_mem _ _).mp
          (head_getD_mem _ (sortKeys_ne_nil _ hkeys_ne))
      | Least =>
        exact (sortKeys_mem _ _).mp
          (getLast_getD_mem _ (sortKeys_ne_nil _ hkeys_ne))
    have hlen2 := length_assocErase_of_mem (assocInsert p.records d c) _ hnd1 hkey_mem
    have hnd2 := nodup_keys_assocErase (assocInsert p.records d c)
      (match p.pool_type with
        | PoolType.Most => (sortKeys (keys (assocInsert p.records d c))).head?.getD 0
        | PoolType.Least => (sortKeys (keys (assocInsert p.records d c))).getLast?.getD 0) hnd1
    refine ⟨hnd2, by omega, by omega, fun e he => by omega⟩
  · -- the map stayed within `bounds`: no eviction
    have hnd1 : (keys (assocInsert p.records d c)).Nodup :=
      nodup_keys_assocInsert p.records d c hnd
    have hle1 : (assocInsert p.records d c).length ≤ p.records.length + 1 :=
      length_assocInsert_le p.records d c
    refine ⟨hnd1, by omega, by omega, fun e he => by simp at he⟩
  · exact ⟨hnd, hlen, by omega, fun e he => by simp at he⟩

/-! Structural facts about the registry operations of `DataStore`. -/

theorem cfd_top (s : DataStore) (desc : String) :
    (s.code_for_description desc).2.top = s.top := by
  unfold DataStore.code_for_description
  cases hx : assocLookup s.descriptions desc <;> rfl

theorem cfd_bottom (s : DataStore) (desc : String) :
    (s.code_for_description desc).2.bottom = s.bottom := by
  unfold DataStore.code_for_description
  cases hx : assocLookup s.descriptions desc <;> rfl

theorem cleanup_top (s : DataStore) (code : ℕ) :
    (s.cleanup_descriptions code).top = s.top := by
  unfold DataStore.cleanup_descriptions
  cases hx : assocLookup s.code_use code with
  | none => rfl
  | some count =>
    dsimp only
    split_ifs <;> rfl

theorem cleanup_bottom (s : DataStore) (code : ℕ) :
    (s.cleanup_descriptions code).bottom = s.bottom := by
  unfold DataStore.cleanup_descriptions
  cases hx : assocLookup s.code_use code with
  | none => rfl
  | some count =>
    dsimp only
    split_ifs <;> rfl

theorem cleanup_next_code (s : DataStore) (code : ℕ) :
    (s.cleanup_descriptions code).next_code = s.next_code := by
  unfold DataStore.cleanup_descriptions
  cases hx : assocLookup s.code_use code with
  | none => rfl
  | some count =>
    dsimp only
    split_ifs <;> rfl

/-- The store invariant maintained by ingestion: both pools have distinct
keys and respect their capacity, the use-count keys are distinct, every
interned description's code is tracked in `code_use`, every tracked code is
below `next_code`, and the total number of retained pool entries is bounded
by the total of the use counts. -/
structure StoreInv (s : DataStore) : Prop where
  topNodup : (keys s.top.records).Nodup
  topLen : s.top.records.length ≤ s.top.bounds
  botNodup : (keys s.bottom.records).Nodup
  botLen : s.bottom.records.length ≤ s.bottom.bounds
  cuNodup : (keys s.code_use).Nodup
  sync : ∀ p ∈ s.descriptions, p.2 ∈ keys s.code_use
  fresh : ∀ c ∈ keys s.code_use, c < s.next_code
  sizes : s.top.records.length + s.bottom.records.length ≤ countSum s.code_use

/-- Effect of `code_for_description` on the registry: the pools are
untouched, the total use count grows by exactly one, and the registry
invariants are preserved. -/
theorem cfd_spec (s : DataStore) (desc : String) (h : StoreInv s) :
    countSum (s.code_for_description desc).2.code_use = countSum s.code_use + 1 ∧
    (keys (s.code_for_description desc).2.code_use).Nodup ∧
    (∀ p ∈ (s.code_for_description desc).2.descriptions,
        p.2 ∈ keys (s.code_for_description desc).2.code_use) ∧
    (∀ c ∈ keys (s.code_for_description desc).2.code_use,
        c < (s.code_for_description desc).2.next_code) := by
  unfold DataStore.code_for_description
  cases hx : assocLookup s.descriptions desc with
  | some code =>
    dsimp only
    have hdm : (desc, code) ∈ s.descriptions := mem_of_assocLookup hx
    have hck : code ∈ keys s.code_use := h.sync _ hdm
    refine ⟨countSum_bumpCount_mem _ _ hck, ?_, ?_, ?_⟩
    · rw [keys_bumpCount]; exact h.cuNodup
    · intro p hp; rw [keys_bumpCount]; exact h.sync p hp
    · intro c hc; rw [keys_bumpCount] at hc; exact h.fresh c hc
  | none =>
    dsimp only
    have hfresh : s.next_code ∉ keys s.code_use := fun hmem => lt_irrefl _ (h.fresh _ hmem)
    have happ : assocInsert s.code_use s.next_code 1 = s.code_use ++ [(s.next_code, 1)] :=
      assocInsert_not_mem_eq_append _ _ _ hfresh
    have hkeys : keys (assocInsert s.code_use s.next_code 1)
        = keys s.code_use ++ [s.next_code] :=
      keys_assocInsert_not_mem _ _ _ hfresh
    refine ⟨?_, ?_, ?_, ?_⟩
    · rw [happ, countSum_append]
      simp [countSum]
    · rw [hkeys]
      simpa using List.Nodup.append h.cuNodup (List.nodup_singleton _) (by simpa using hfresh)
    · intro p hp
      simp only [bimapInsert, List.mem_append] at hp
      rw [hkeys]
      rcases hp with hp1 | hp1
      · have hmem : p ∈ s.descriptions := List.mem_of_mem_filter hp1
        exact List.mem_append.mpr (Or.inl (h.sync p hmem))
      · have hpd : p = (desc, s.next_code) := by simpa using hp1
        rw [hpd]
        exact List.mem_append.mpr (Or.inr (by simp))
    · intro c hc
      rw [hkeys] at hc
      rcases List.mem_append.mp hc with hc1 | hc1
      · exact lt_trans (h.fresh c hc1) (Nat.lt_succ_self _)
      · have hcn : c = s.next_code := by simpa using hc1
        rw [hcn]
        exact Nat.lt_succ_self _

/-- Effect of `cleanup_descriptions` on the registry: the pools and
`next_code` are untouched, the total use count drops by at most one, and the
registry invariants are preserved. -/
theorem cleanup_spec (s : DataStore) (code : ℕ)
    (hnd : (keys s.code_use).Nodup)
    (hsync : ∀ p ∈ s.descriptions, p.2 ∈ keys s.code_use)
    (hfresh : ∀ c ∈ keys s.code_use, c < s.next_code) :
    countSum s.code_use ≤ countSum (s.cleanup_descriptions code).code_use + 1 ∧
    (keys (s.cleanup_descriptions code).code_use).Nodup ∧
    (∀ p ∈ (s.cleanup_descriptions code).descriptions,
        p.2 ∈ keys (s.cleanup_descriptions code).code_use) ∧
    (∀ c ∈ keys (s.cleanup_descriptions code).code_use, c < s.next_code) := by
  unfold DataStore.cleanup_descriptions
  cases hx : assocLookup s.code_use code with
  | none =>
    dsimp only
    exact ⟨by omega, hnd, hsync, hfresh⟩
  | some count =>
    dsimp only
    split_ifs with hz
    · -- the count reached zero: the code is dropped from both maps
      dsimp only
      have hsum := countSum_assocErase_lookup s.code_use code count hnd hx
      have hkeysE := keys_assocErase s.code_use code
      refine ⟨by omega, nodup_keys_assocErase _ _ hnd, ?_, ?_⟩
      · intro p hp
        have hp1 : p ∈ s.descriptions := List.mem_of_mem_filter hp
        have hp2 : ¬ p.2 = code := by
          have := List.of_mem_filter hp
          simpa using this
        rw [hkeysE]
        exact List.mem_filter.mpr ⟨hsync p hp1, by simpa using hp2⟩
      · intro c hc
        rw [hkeysE] at hc
        exact hfresh c (List.mem_filter.mp hc).1
    · -- the count stays positive: only the stored count changes
      dsimp only
      have hck : code ∈ keys s.code_use := mem_keys_of_mem (mem_of_assocLookup hx)
      have hkeysI := keys_assocInsert_mem s.code_use code (count - 1) hck
      have hsum := countSum_assocInsert_lookup s.code_use code (count - 1) count hx
      refine ⟨by omega, ?_, ?_, ?_⟩
      · rw [hkeysI]; exact hnd
      · intro p hp; rw [hkeysI]; exact hsync p hp
      · intro c hc; rw [hkeysI] at hc; exact hfresh c hc

/-! Case-shape lemmas for `DataStore.recordDiff`: one equation per control
path of the source routine. -/

theorem recordDiff_top_none (s : DataStore) (desc : String) (d : ℚ)
    (hft : s.top.fits d = true)
    (hins : ((s.code_for_description desc).2.top.insert d
        (s.code_for_description desc).1).1 = none) :
    s.recordDiff desc d =
      { (s.code_for_description desc).2 with
        top := ((s.code_for_description desc).2.top.insert d
          (s.code_for_description desc).1).2 } := by
  unfold DataStore.recordDiff
  rw [if_pos hft]
  dsimp only
  rw [hins]

theorem recordDiff_top_some_fit (s : DataStore) (desc : String) (d : ℚ)
    (rep : ℚ × ℕ) (hft : s.top.fits d = true)
    (hins : ((s.code_for_description desc).2.top.insert d
        (s.code_for_description desc).1).1 = some rep)
    (hbf : s.bottom.fits rep.1 = true) :
    s.recordDiff desc d =
      { (s.code_for_description desc).2 with
        top := ((s.code_for_description desc).2.top.insert d
          (s.code_for_description desc).1).2,
        bottom := (s.bottom.insert rep.1 rep.2).2 } := by
  unfold DataStore.recordDiff
  rw [if_pos hft]
  dsimp only
  rw [hins]
  dsimp only
  rw [cfd_bottom, if_pos hbf]

theorem recordDiff_top_some_nofit (s : DataStore) (desc : String) (d : ℚ)
    (rep : ℚ × ℕ) (hft : s.top.fits d = true)
    (hins : ((s.code_for_description desc).2.top.insert d
        (s.code_for_description desc).1).1 = some rep)
    (hbf : s.bottom.fits rep.1 = false) :
    s.recordDiff desc d =
      DataStore.cleanup_descriptions
        { (s.code_for_description desc).2 with
          top := ((s.code_for_description desc).2.top.insert d
            (s.code_for_description desc).1).2 } rep.2 := by
  unfold DataStore.recordDiff
  rw [if_pos hft]
  dsimp only
  rw [hins]
  dsimp only
  rw [cfd_bottom, if_neg (by simp [hbf])]

theorem recordDiff_bottom_none (s : DataStore) (desc : String) (d : ℚ)
    (hft : s.top.fits d = false) (hbt : s.bottom.fits d = true)
    (hins : ((s.code_for_description desc).2.bottom.insert d
        (s.code_for_description desc).1).1 = none) :
    s.recordDiff desc d =
      { (s.code_for_description desc).2 with
        bottom := ((s.code_for_description desc).2.bottom.insert d
          (s.code_for_description desc).1).2 } := by
  unfold DataStore.recordDiff
  rw [if_neg (by simp [hft]), if_pos hbt]
  dsimp only
  rw [hins]

theorem recordDiff_bottom_some_fit (s : DataStore) (desc : String) (d : ℚ)
    (rep : ℚ × ℕ) (hft : s.top.fits d = false) (hbt : s.bottom.fits d = true)
    (hins : ((s.code_for_description desc).2.bottom.insert d
        (s.code_for_description desc).1).1 = some rep)
    (htf : s.top.fits rep.1 = true) :
    s.recordDiff desc d =
      { (s.code_for_description desc).2 with
        bottom := ((s.code_for_description desc).2.bottom.insert d
          (s.code_for_description desc).1).2,
        top := (s.top.insert rep.1 rep.2).2 } := by
  unfold DataStore.recordDiff
  rw [if_neg (by simp [hft]), if_pos hbt]
  dsimp only
  rw [hins]
  dsimp only
  rw [cfd_top, if_pos htf]

theorem recordDiff_bottom_some_nofit (s : DataStore) (desc : String) (d : ℚ)
    (rep : ℚ × ℕ) (hft : s.top.fits d = false) (hbt : s.bottom.fits d = true)
    (hins : ((s.code_for_description desc).2.bottom.insert d
        (s.code_for_description desc).1).1 = some rep)
    (htf : s.top.fits rep.1 = false) :
    s.recordDiff desc d =
      DataStore.cleanup_descriptions
        { (s.code_for_description desc).2 with
          bottom := ((s.code_for_description desc).2.bottom.insert d
            (s.code_for_description desc).1).2 } rep.2 := by
  unfold DataStore.recordDiff
  rw [if_neg (by simp [hft]), if_pos hbt]
  dsimp only
  rw [hins]
  dsimp only
  rw [cfd_top, if_neg (by simp [htf])]

theorem recordDiff_nofit (s : DataStore) (desc : String) (d : ℚ)
    (hft : s.top.fits d = false) (hbt : s.bottom.fits d = false) :
    s.recordDiff desc d = s := by
  unfold DataStore.recordDiff
  rw [if_neg (by simp [hft]), if_neg (by simp [hbt])]

/-- Ingestion preserves the store invariant and both pools' capacities. -/
theorem recordDiff_preserves (s : DataStore) (desc : String) (d : ℚ) (h : StoreInv s) :
    StoreInv (s.recordDiff desc d) ∧
    (s.recordDiff desc d).top.bounds = s.top.bounds ∧
    (s.recordDiff desc d).bottom.bounds = s.bottom.bounds := by
  obtain ⟨hSum, hNd, hSync, hFresh⟩ := cfd_spec s desc h
  have htopeq := cfd_top s desc
  have hboteq := cfd_bottom s desc
  have htl : (s.code_for_description desc).2.top.records.length = s.top.records.length := by
    rw [htopeq]
  have htb : (s.code_for_description desc).2.top.bounds = s.top.bounds := by
    rw [htopeq]
  have hbl : (s.code_for_description desc).2.bottom.records.length
      = s.bottom.records.length := by
    rw [hboteq]
  have hbb : (s.code_for_description desc).2.bottom.bounds = s.bottom.bounds := by
    rw [hboteq]
  cases hft : s.top.fits d with
  | true =>
    have hTN : (keys (s.code_for_description desc).2.top.records).Nodup := by
      rw [htopeq]; exact h.topNodup
    have hTL : (s.code_for_description desc).2.top.records.length
        ≤ (s.code_for_description desc).2.top.bounds := by
      rw [htopeq]; exact h.topLen
    obtain ⟨hnd1, hlen1, hle1, hsome1⟩ :=
      insert_inv (s.code_for_description desc).2.top d (s.code_for_description desc).1 hTN hTL
    have hbnd1 := insert_bounds_eq (s.code_for_description desc).2.top d
      (s.code_for_description desc).1
    cases hins : ((s.code_for_description desc).2.top.insert d
        (s.code_for_description desc).1).1 with
    | none =>
      rw [recordDiff_top_none s desc d hft hins]
      refine ⟨⟨?_, ?_, ?_, ?_, ?_, ?_, ?_, ?_⟩, ?_, ?_⟩ <;> dsimp only
      · exact hnd1
      · rw [hbnd1]
        exact hlen1
      · rw [hboteq]; exact h.botNodup
      · rw [hboteq]; exact h.botLen
      · exact hNd
      · exact hSync
      · exact hFresh
      · have := h.sizes
        omega
      · rw [hbnd1, htb]
      · rw [hbb]
    | some rep =>
      have hlen_eq := hsome1 rep hins
      cases hbf : s.bottom.fits rep.1 with
      | true =>
        rw [recordDiff_top_some_fit s desc d rep hft hins hbf]
        obtain ⟨hnd2, hlen2, hle2, _⟩ := insert_inv s.bottom rep.1 rep.2 h.botNodup h.botLen
        have hbnd2 := insert_bounds_eq s.bottom rep.1 rep.2
        refine ⟨⟨?_, ?_, ?_, ?_, ?_, ?_, ?_, ?_⟩, ?_, ?_⟩ <;> dsimp only
        · exact hnd1
        · rw [hbnd1]
          exact hlen1
        · exact hnd2
        · rw [hbnd2]
          exact hlen2
        · exact hNd
        · exact hSync
        · exact hFresh
        · have := h.sizes
          omega
        · rw [hbnd1, htb]
        · rw [hbnd2]
      | false =>
        rw [recordDiff_top_some_nofit s desc d rep hft hins hbf]
        have hclean := cleanup_spec
          { (s.code_for_description desc).2 with
            top := ((s.code_for_description desc).2.top.insert d
              (s.code_for_description desc).1).2 } rep.2 hNd hSync hFresh
        obtain ⟨hcsum, hcnd, hcsync, hcfresh⟩ := hclean
        dsimp only at hcsum
        have hct := cleanup_top
          { (s.code_for_description desc).2 with
            top := ((s.code_for_description desc).2.top.insert d
              (s.code_for_description desc).1).2 } rep.2
        have hcb := cleanup_bottom
          { (s.code_for_description desc).2 with
            top := ((s.code_for_description desc).2.top.insert d
              (s.code_for_description desc).1).2 } rep.2
        have hcn := cleanup_next_code
          { (s.code_for_description desc).2 with
            top := ((s.code_for_description desc).2.top.insert d
              (s.code_for_description desc).1).2 } rep.2
        refine ⟨⟨?_, ?_, ?_, ?_, ?_, ?_, ?_, ?_⟩, ?_, ?_⟩
        · rw [hct]
          exact hnd1
        · rw [hct]
          dsimp only
          rw [hbnd1]
          exact hlen1
        · rw [hcb]
          dsimp only
          rw [hboteq]; exact h.botNodup
        · rw [hcb]
          dsimp only
          rw [hboteq]; exact h.botLen
        · exact hcnd
        · exact hcsync
        · intro c hc
          rw [hcn]
          exact hcfresh c hc
        · rw [hct, hcb]
          dsimp only
          have hs := h.sizes
          omega
        · rw [hct]
          dsimp only
          rw [hbnd1, htb]
        · rw [hcb]
          dsimp only
          rw [hbb]
  | false =>
    cases hbt : s.bottom.fits d with
    | false =>
      rw [recordDiff_nofit s desc d hft hbt]
      exact ⟨h, rfl, rfl⟩
    | true =>
      have hBN : (keys (s.code_for_description desc).2.bottom.records).Nodup := by
        rw [hboteq]; exact h.botNodup
      have hBL : (s.code_for_description desc).2.bottom.records.length
          ≤ (s.code_for_description desc).2.bottom.bounds := by
        rw [hboteq]; exact h.botLen
      obtain ⟨hnd1, hlen1, hle1, hsome1⟩ :=
        insert_inv (s.code_for_description desc).2.bottom d (s.code_for_description desc).1
          hBN hBL
      have hbnd1 := insert_bounds_eq (s.code_for_description desc).2.bottom d
        (s.code_for_description desc).1
      cases hins : ((s.code_for_description desc).2.bottom.insert d
          (s.code_for_description desc).1).1 with
      | none =>
        rw [recordDiff_bottom_none s desc d hft hbt hins]
        refine ⟨⟨?_, ?_, ?_, ?_, ?_, ?_, ?_, ?_⟩, ?_, ?_⟩ <;> dsimp only
        · rw [htopeq]; exact h.topNodup
        · rw [htopeq]; exact h.topLen
        · exact hnd1
        · rw [hbnd1]
          exact hlen1
        · exact hNd
        · exact hSync
        · exact hFresh
        · have := h.sizes
          omega
        · rw [htb]
        · rw [hbnd1, hbb]
      | some rep =>
        have hlen_eq := hsome1 rep hins
        cases htf : s.top.fits rep.1 with
        | true =>
          rw [recordDiff_bottom_some_fit s desc d rep hft hbt hins htf]
          obtain ⟨hnd2, hlen2, hle2, _⟩ := insert_inv s.top rep.1 rep.2 h.topNodup h.topLen
          have hbnd2 := insert_bounds_eq s.top rep.1 rep.2
          refine ⟨⟨?_, ?_, ?_, ?_, ?_, ?_, ?_, ?_⟩, ?_, ?_⟩ <;> dsimp only
          · exact hnd2
          · rw [hbnd2]
            exact hlen2
          · exact hnd1
          · rw [hbnd1]
            exact hlen1
          · exact hNd
          · exact hSync
          · exact hFresh
          · have := h.sizes
            omega
          · rw [hbnd2]
          · rw [hbnd1, hbb]
        | false =>
          rw [recordDiff_bottom_some_nofit s desc d rep hft hbt hins htf]
          have hclean := cleanup_spec
            { (s.code_for_description desc).2 with
              bottom := ((s.code_for_description desc).2.bottom.insert d
                (s.code_for_description desc).1).2 } rep.2 hNd hSync hFresh
          obtain ⟨hcsum, hcnd, hcsync, hcfresh⟩ := hclean
          dsimp only at hcsum
          have hct := cleanup_top
            { (s.code_for_description desc).2 with
              bottom := ((s.code_for_description desc).2.bottom.insert d
                (s.code_for_description desc).1).2 } rep.2
          have hcb := cleanup_bottom
            { (s.code_for_description desc).2 with
              bottom := ((s.code_for_description desc).2.bottom.insert d
                (s.code_for_description desc).1).2 } rep.2
          have hcn := cleanup_next_code
            { (s.code_for_description desc).2 with
              bottom := ((s.code_for_description desc).2.bottom.insert d
                (s.code_for_description desc).1).2 } rep.2
          refine ⟨⟨?_, ?_, ?_, ?_, ?_, ?_, ?_, ?_⟩, ?_, ?_⟩
          · rw [hct]
            dsimp only
            rw [htopeq]; exact h.topNodup
          · rw [hct]
            dsimp only
            rw [htopeq]; exact h.topLen
          · rw [hcb]
            exact hnd1
          · rw [hcb]
            dsimp only
            rw [hbnd1]
            exact hlen1
          · exact hcnd
          · exact hcsync
          · intro c hc
            rw [hcn]
            exact hcfresh c hc
          · rw [hct, hcb]
            dsimp only
            have hs := h.sizes
            omega
          · rw [hct]
            dsimp only
            rw [htb]
          · rw [hcb]
            dsimp only
            rw [hbnd1, hbb]

theorem keys_ne_nil_of_len {α β : Type} (l : List (α × β)) (h : 1 ≤ l.length) :
    keys l ≠ [] := by
  intro hnil
  have hk := length_keys l
  rw [hnil] at hk
  simp at hk
  omega

theorem assocLookup_isSome_of_mem {α β : Type} [DecidableEq α] (l : List (α × β)) (k : α)
    (h : k ∈ keys l) : ∃ w, assocLookup l k = some w := by
  cases hx : assocLookup l k with
  | none => exact absurd ((assocLookup_eq_none l k).mp hx) (by simpa using h)
  | some w => exact ⟨w, rfl⟩

theorem recordAll_nil (s : DataStore) : s.recordAll [] = s := rfl

theorem recordAll_cons (s : DataStore) (p : String × ℚ) (rest : List (String × ℚ)) :
    s.recordAll (p :: rest) = (s.recordDiff p.1 p.2).recordAll rest := rfl

/-- The invariant and the capacities survive a whole ingestion run. -/
theorem recordAll_preserves (l : List (String × ℚ)) :
    ∀ s : DataStore, StoreInv s →
      StoreInv (s.recordAll l) ∧
      (s.recordAll l).top.bounds = s.top.bounds ∧
      (s.recordAll l).bottom.bounds = s.bottom.bounds := by
  induction l with
  | nil => exact fun s hs => ⟨hs, rfl, rfl⟩
  | cons p rest ih =>
    intro s hs
    obtain ⟨h1, h2, h3⟩ := recordDiff_preserves s p.1 p.2 hs
    obtain ⟨h4, h5, h6⟩ := ih (s.recordDiff p.1 p.2) h1
    rw [recordAll_cons]
    exact ⟨h4, by rw [h5, h2], by rw [h6, h3]⟩

theorem storeInv_init (n : ℕ) : StoreInv (DataStore.init n) := by
  constructor <;> simp [DataStore.init, keys_nil, countSum]

theorem new_eq_init (n : ℕ) (h : 1 ≤ n) : DataStore.new n = Except.ok (DataStore.init n) := by
  have hne : ¬ n = 0 := by omega
  simp only [DataStore.new, RecordPool.new, if_neg hne]
  rfl

theorem new_ok (N : ℕ) (s0 : DataStore) (h : DataStore.new N = Except.ok s0) :
    s0 = DataStore.init N ∧ 1 ≤ N := by
  by_cases hN : N = 0
  · rw [hN] at h
    simp only [DataStore.new, RecordPool.new, if_pos rfl] at h
    exact absurd h (by intro hc; cases hc)
  · have h1 : 1 ≤ N := by omega
    rw [new_eq_init N h1] at h
    exact ⟨(Except.ok.inj h).symm, h1⟩

/-! Claim-level theorems. -/

/-- C1 (amended): the cached `smallest`/`largest` bounds are recomputed from
the stored entries exactly when an insert evicts; every non-evicting insert —
including one that raises the pool from below capacity to exactly capacity —
leaves the cached bounds unchanged, so at exactly-capacity they need not
agree with the stored extremes until the first eviction. -/
theorem C1_cached_bounds_amended (p : RecordPool) (d : ℚ) (c : ℕ)
    (hnd : (keys p.records).Nodup) (hb : 1 ≤ p.bounds) :
    (∀ e, (p.insert d c).1 = some e →
        (p.insert d c).2.smallest = minD (keys (p.insert d c).2.records) ∧
        (p.insert d c).2.largest = maxD (keys (p.insert d c).2.records)) ∧
    ((p.insert d c).1 = none →
        (p.insert d c).2.smallest = p.smallest ∧
        (p.insert d c).2.largest = p.largest) := by
  simp only [RecordPool.insert]
  split_ifs with hf hdup hover <;> dsimp only
  · exact ⟨fun e he => by simp at he, fun _ => ⟨rfl, rfl⟩⟩
  · have hnd1 := nodup_keys_assocInsert p.records d c hnd
    have hle1 := length_assocInsert_le p.records d c
    have hkne1 : keys (assocInsert p.records d c) ≠ [] :=
      keys_ne_nil_of_len _ (by omega)
    have hkey_mem : (match p.pool_type with
        | PoolType.Most => (sortKeys (keys (assocInsert p.records d c))).head?.getD 0
        | PoolType.Least => (sortKeys (keys (assocInsert p.records d c))).getLast?.getD 0)
        ∈ keys (assocInsert p.records d c) := by
      cases p.pool_type with
      | Most => exact (sortKeys_mem _ _).mp (head_getD_mem _ (sortKeys_ne_nil _ hkne1))
      | Least => exact (sortKeys_mem _ _).mp (getLast_getD_mem _ (sortKeys_ne_nil _ hkne1))
    have hlen2 := length_assocErase_of_mem (assocInsert p.records d c) _ hnd1 hkey_mem
    have hkne2 : keys (assocErase (assocInsert p.records d c)
        (match p.pool_type with
          | PoolType.Most => (sortKeys (keys (assocInsert p.records d c))).head?.getD 0
          | PoolType.Least =>
            (sortKeys (keys (assocInsert p.records d c))).getLast?.getD 0)) ≠ [] :=
      keys_ne_nil_of_len _ (by omega)
    exact ⟨fun e he => ⟨sortKeys_head_eq_minD _ hkne2, sortKeys_getLast_eq_maxD _ hkne2⟩,
           fun hne => by simp at hne⟩
  · exact ⟨fun e he => by simp at he, fun _ => ⟨rfl, rfl⟩⟩
  · exact ⟨fun e he => by simp at he, fun _ => ⟨rfl, rfl⟩⟩

/-- C5: when an insert brings a genuinely new difference into a pool already
holding `bounds` entries, exactly one entry is evicted — the one with the
smallest difference of the grown map for a `Most` pool, the one with the
largest difference for a `Least` pool, together with the code stored for it —
and the cached bounds are recomputed as the minimum and maximum of the
remaining entries. -/
theorem C5_eviction_choice (p : RecordPool) (d : ℚ) (c : ℕ)
    (hnd : (keys p.records).Nodup) (hb : 1 ≤ p.bounds)
    (hlen : p.records.length = p.bounds)
    (hfits : p.fits d = true) (hnew : d ∉ keys p.records) :
    (p.insert d c).2.records.length = p.bounds ∧
    (p.insert d c).2.smallest = minD (keys (p.insert d c).2.records) ∧
    (p.insert d c).2.largest = maxD (keys (p.insert d c).2.records) ∧
    (p.pool_type = PoolType.Most →
      ∃ v, (p.insert d c).1 = some (minD (keys (assocInsert p.records d c)), v) ∧
        (minD (keys (assocInsert p.records d c)), v) ∈ assocInsert p.records d c ∧
        (p.insert d c).2.records
          = assocErase (assocInsert p.records d c)
              (minD (keys (assocInsert p.records d c)))) ∧
    (p.pool_type = PoolType.Least →
      ∃ v, (p.insert d c).1 = some (maxD (keys (assocInsert p.records d c)), v) ∧
        (maxD (keys (assocInsert p.records d c)), v) ∈ assocInsert p.records d c ∧
        (p.insert d c).2.records
          = assocErase (assocInsert p.records d c)
              (maxD (keys (assocInsert p.records d c)))) := by
  have hlookup : assocLookup p.records d = none := (assocLookup_eq_none _ _).mpr hnew
  have hlen1 : (assocInsert p.records d c).length = p.bounds + 1 := by
    rw [length_assocInsert_not_mem _ _ _ hnew, hlen]
  have hnd1 : (keys (assocInsert p.records d c)).Nodup := nodup_keys_assocInsert _ _ _ hnd
  have hkne1 : keys (assocInsert p.records d c) ≠ [] :=
    keys_ne_nil_of_len _ (by omega)
  simp only [RecordPool.insert]
  rw [if_pos hfits, if_neg (by simp [hlookup]), if_pos (by omega)]
  cases hpt : p.pool_type with
  | Most =>
    dsimp only
    have hkeyeq : (sortKeys (keys (assocInsert p.records d c))).head?.getD 0
        = minD (keys (assocInsert p.records d c)) := sortKeys_head_eq_minD _ hkne1
    have hkey_mem : minD (keys (assocInsert p.records d c))
        ∈ keys (assocInsert p.records d c) := minD_mem _ hkne1
    obtain ⟨w, hw⟩ := assocLookup_isSome_of_mem _ _ hkey_mem
    have hlen2 := length_assocErase_of_mem (assocInsert p.records d c) _ hnd1 hkey_mem
    have hkne2 : keys (assocErase (assocInsert p.records d c)
        (minD (keys (assocInsert p.records d c)))) ≠ [] :=
      keys_ne_nil_of_len _ (by omega)
    rw [hkeyeq]
    refine ⟨by omega, sortKeys_head_eq_minD _ hkne2, sortKeys_getLast_eq_maxD _ hkne2, ?_, ?_⟩
    · intro hpm
      refine ⟨(assocLookup (assocInsert p.records d c)
          (minD (keys (assocInsert p.records d c)))).getD 0, rfl, ?_, rfl⟩
      rw [hw]
      exact mem_of_assocLookup hw
    · intro hcontra
      cases hcontra
  | Least =>
    dsimp only
    have hkeyeq : (sortKeys (keys (assocInsert p.records d c))).getLast?.getD 0
        = maxD (keys (assocInsert p.records d c)) := sortKeys_getLast_eq_maxD _ hkne1
    have hkey_mem : maxD (keys (assocInsert p.records d c))
        ∈ keys (assocInsert p.records d c) := maxD_mem _ hkne1
    obtain ⟨w, hw⟩ := assocLookup_isSome_of_mem _ _ hkey_mem
    have hlen2 := length_assocErase_of_mem (assocInsert p.records d c) _ hnd1 hkey_mem
    have hkne2 : keys (assocErase (assocInsert p.records d c)
        (maxD (keys (assocInsert p.records d c)))) ≠ [] :=
      keys_ne_nil_of_len _ (by omega)
    rw [hkeyeq]
    refine ⟨by omega, sortKeys_head_eq_minD _ hkne2, sortKeys_getLast_eq_maxD _ hkne2, ?_, ?_⟩
    · intro hcontra
      cases hcontra
    · intro hpl
      refine ⟨(assocLookup (assocInsert p.records d c)
          (maxD (keys (assocInsert p.records d c)))).getD 0, rfl, ?_, rfl⟩
      rw [hw]
      exact mem_of_assocLookup hw

/-- The decimal 3.2 (the source test's `Decimal::new(32, 1)`), written in
lowest terms so that the kernel can evaluate comparisons on it. -/
def dec32 : ℚ := ⟨16, 5, by decide, by decide⟩

theorem dec32_eq_literal : dec32 = 3.2 := by
  unfold dec32
  rw [Rat.mk'_eq_divInt, Rat.divInt_eq_div]
  norm_num

/-- The capacity-1 `Most` pool after inserting difference 5 with code 0. -/
def c1_pool : RecordPool :=
  (({ records := [], largest := 0, smallest := 0, bounds := 1,
      pool_type := PoolType.Most } : RecordPool).insert 5 0).2

/-- C1 counterexample: a `Most` pool of capacity 1, as built by
`RecordPool::new`, reaches exactly `capacity` entries after one insert, yet
its cached `smallest`/`largest` stay at the stale initial 0 while the only
stored difference is 5 — the claimed recomputation on reaching capacity does
not happen. -/
theorem C1_counterexample :
    RecordPool.new 1 PoolType.Most
      = Except.ok { records := [], largest := 0, smallest := 0, bounds := 1,
                    pool_type := PoolType.Most } ∧
    c1_pool.records.length = c1_pool.bounds ∧
    c1_pool.smallest = 0 ∧
    c1_pool.largest = 0 ∧
    minD (keys c1_pool.records) = 5 ∧
    maxD (keys c1_pool.records) = 5 :=
  ⟨rfl, by decide, by decide, by decide, by decide, by decide⟩

/-- Witness for C1 (amended) at a concrete pool: the capacity-1 pool holding
difference 5 accepts 7 and evicts, recomputing its cached bounds. -/
theorem C1_witness :
    (∀ e, (c1_pool.insert 7 1).1 = some e →
        (c1_pool.insert 7 1).2.smallest = minD (keys (c1_pool.insert 7 1).2.records) ∧
        (c1_pool.insert 7 1).2.largest = maxD (keys (c1_pool.insert 7 1).2.records)) ∧
    ((c1_pool.insert 7 1).1 = none →
        (c1_pool.insert 7 1).2.smallest = c1_pool.smallest ∧
        (c1_pool.insert 7 1).2.largest = c1_pool.largest) :=
  C1_cached_bounds_amended c1_pool 7 1 (by decide) (by decide)

/-- C2 counterexample: recording the identical ("a", difference 5) twice in a
capacity-1 store leaves one retained entry but a use-count total of 2, so the
claimed equality `sum of use_count = most.size + least.size` fails. -/
theorem C2_counterexample :
    DataStore.new 1 = Except.ok (DataStore.init 1) ∧
    countSum (((DataStore.init 1).recordDiff "a" 5).recordDiff "a" 5).code_use = 2 ∧
    (((DataStore.init 1).recordDiff "a" 5).recordDiff "a" 5).top.records.length
      + (((DataStore.init 1).recordDiff "a" 5).recordDiff "a" 5).bottom.records.length
      = 1 :=
  ⟨new_eq_init 1 (by omega), by decide, by decide⟩

/-- C2 (amended): the claimed per-entry equality can fail (a duplicate record
inflates its code's count, and a discarded transfer eviction is never
released), but after every ingestion run the sum of the use counts bounds the
total number of retained pool entries from above. -/
theorem C2_refcount_lower_bound (N : ℕ) (s0 : DataStore)
    (h0 : DataStore.new N = Except.ok s0) (l : List (String × ℚ)) :
    (s0.recordAll l).top.records.length + (s0.recordAll l).bottom.records.length
      ≤ countSum (s0.recordAll l).code_use := by
  obtain ⟨rfl, hN⟩ := new_ok N s0 h0
  exact (recordAll_preserves l (DataStore.init N) (storeInv_init N)).1.sizes

/-- Witness for C2 (amended) at a concrete run. -/
theorem C2_witness :
    ((DataStore.init 1).recordAll [("a", 5)]).top.records.length
      + ((DataStore.init 1).recordAll [("a", 5)]).bottom.records.length
      ≤ countSum ((DataStore.init 1).recordAll [("a", 5)]).code_use :=
  C2_refcount_lower_bound 1 (DataStore.init 1) (new_eq_init 1 (by omega)) [("a", 5)]

/-- C3 counterexample: repeating the identical record ("a", difference 5) on a
capacity-1 store leaves the pools unchanged but bumps the code's use count
from 1 to 2, refuting "every registry use_count value is the same after the
second call as after the first". -/
theorem C3_counterexample :
    ((DataStore.init 1).recordDiff "a" 5).code_use = [(0, 1)] ∧
    (((DataStore.init 1).recordDiff "a" 5).recordDiff "a" 5).code_use = [(0, 2)] ∧
    (((DataStore.init 1).recordDiff "a" 5).recordDiff "a" 5).top.records
      = ((DataStore.init 1).recordDiff "a" 5).top.records ∧
    (((DataStore.init 1).recordDiff "a" 5).recordDiff "a" 5).bottom.records
      = ((DataStore.init 1).recordDiff "a" 5).bottom.records := by
  decide

/-- C3 (amended): a second identical record changes nothing — pools, interned
descriptions, `next_code` — except the use count of its description's code,
which is incremented once more, provided its retained difference/code pair
sits in the pool that the routing order offers the difference to: either the
top pool accepts the difference and holds the pair, or the top pool rejects
the difference and the bottom pool accepts it and holds the pair. -/
theorem C3_idempotent_amended (s : DataStore) (desc : String) (d : ℚ) (code k : ℕ)
    (hdesc : assocLookup s.descriptions desc = some code)
    (hcnt : assocLookup s.code_use code = some k) :
    (s.top.fits d = true →
      assocLookup s.top.records d = some code →
      (s.recordDiff desc d).top = s.top ∧
      (s.recordDiff desc d).bottom = s.bottom ∧
      (s.recordDiff desc d).descriptions = s.descriptions ∧
      (s.recordDiff desc d).next_code = s.next_code ∧
      assocLookup (s.recordDiff desc d).code_use code = some (k + 1)) ∧
    (s.top.fits d = false →
      s.bottom.fits d = true →
      assocLookup s.bottom.records d = some code →
      (s.recordDiff desc d).top = s.top ∧
      (s.recordDiff desc d).bottom = s.bottom ∧
      (s.recordDiff desc d).descriptions = s.descriptions ∧
      (s.recordDiff desc d).next_code = s.next_code ∧
      assocLookup (s.recordDiff desc d).code_use code = some (k + 1)) := by
  have hr1 : (s.code_for_description desc).1 = code := by
    unfold DataStore.code_for_description
    rw [hdesc]
  have hr2 : (s.code_for_description desc).2
      = { s with code_use := bumpCount s.code_use code } := by
    unfold DataStore.code_for_description
    rw [hdesc]
  have htop : (s.code_for_description desc).2.top = s.top := cfd_top s desc
  have hbot : (s.code_for_description desc).2.bottom = s.bottom := cfd_bottom s desc
  constructor
  · intro hfits hmem
    have hins : ((s.code_for_description desc).2.top.insert d
          (s.code_for_description desc).1).1 = none ∧
        ((s.code_for_description desc).2.top.insert d
          (s.code_for_description desc).1).2 = s.top := by
      rw [hr1, htop]
      unfold RecordPool.insert
      rw [if_pos hfits, if_pos (by rw [hmem])]
      exact ⟨rfl, rfl⟩
    rw [recordDiff_top_none s desc d hfits hins.1, hins.2, hr2]
    exact ⟨rfl, rfl, rfl, rfl, assocLookup_bumpCount_self s.code_use code k hcnt⟩
  · intro hft hbt hmem
    have hins : ((s.code_for_description desc).2.bottom.insert d
          (s.code_for_description desc).1).1 = none ∧
        ((s.code_for_description desc).2.bottom.insert d
          (s.code_for_description desc).1).2 = s.bottom := by
      rw [hr1, hbot]
      unfold RecordPool.insert
      rw [if_pos hbt, if_pos (by rw [hmem])]
      exact ⟨rfl, rfl⟩
    rw [recordDiff_bottom_none s desc d hft hbt hins.1, hins.2, hr2]
    exact ⟨rfl, rfl, rfl, rfl, assocLookup_bumpCount_self s.code_use code k hcnt⟩

/-- The capacity-1 store after recording ("a", 10) then ("b", -5): the pair
(-5, code 1) is retained in the bottom pool, the top pool rejects -5 and the
bottom pool accepts it. -/
def c3_store : DataStore := ((DataStore.init 1).recordDiff "a" 10).recordDiff "b" (-5)

/-- Witness for C3 (amended), exercising both routing cases: a duplicate held
by the top pool (("a", 5) on a capacity-1 store) and a duplicate held by the
bottom pool (("b", -5) on `c3_store`, where the top pool rejects -5). -/
theorem C3_witness :
    ((((DataStore.init 1).recordDiff "a" 5).recordDiff "a" 5).top
        = ((DataStore.init 1).recordDiff "a" 5).top ∧
      (((DataStore.init 1).recordDiff "a" 5).recordDiff "a" 5).bottom
        = ((DataStore.init 1).recordDiff "a" 5).bottom ∧
      (((DataStore.init 1).recordDiff "a" 5).recordDiff "a" 5).descriptions
        = ((DataStore.init 1).recordDiff "a" 5).descriptions ∧
      (((DataStore.init 1).recordDiff "a" 5).recordDiff "a" 5).next_code
        = ((DataStore.init 1).recordDiff "a" 5).next_code ∧
      assocLookup ((((DataStore.init 1).recordDiff "a" 5).recordDiff "a" 5)).code_use 0
        = some (1 + 1)) ∧
    ((c3_store.recordDiff "b" (-5)).top = c3_store.top ∧
      (c3_store.recordDiff "b" (-5)).bottom = c3_store.bottom ∧
      (c3_store.recordDiff "b" (-5)).descriptions = c3_store.descriptions ∧
      (c3_store.recordDiff "b" (-5)).next_code = c3_store.next_code ∧
      assocLookup (c3_store.recordDiff "b" (-5)).code_use 1 = some (1 + 1)) :=
  ⟨(C3_idempotent_amended ((DataStore.init 1).recordDiff "a" 5) "a" 5 0 1
      (by decide) (by decide)).1 (by decide) (by decide),
   (C3_idempotent_amended c3_store "b" (-5) 1 1
      (by decide) (by decide)).2 (by decide) (by decide) (by decide)⟩

/-- C4: for every capacity N ≥ 1 (a store `DataStore::new` accepts) and every
sequence of record calls, both pools hold at most N entries after each call. -/
theorem C4_bounded_size (N : ℕ) (s0 : DataStore)
    (h0 : DataStore.new N = Except.ok s0) (l : List (String × ℚ)) :
    (s0.recordAll l).top.records.length ≤ N ∧
    (s0.recordAll l).bottom.records.length ≤ N := by
  obtain ⟨rfl, hN⟩ := new_ok N s0 h0
  obtain ⟨hinv, hbt, hbb⟩ := recordAll_preserves l (DataStore.init N) (storeInv_init N)
  constructor
  · have e1 : ((DataStore.init N).recordAll l).top.bounds = N := by
      rw [hbt]; rfl
    exact le_of_le_of_eq hinv.topLen e1
  · have e2 : ((DataStore.init N).recordAll l).bottom.bounds = N := by
      rw [hbb]; rfl
    exact le_of_le_of_eq hinv.botLen e2

/-- Witness for C4 at a concrete capacity-2 run of three records. -/
theorem C4_witness :
    ((DataStore.init 2).recordAll [("a", 5), ("b", 7), ("c", 1)]).top.records.length ≤ 2 ∧
    ((DataStore.init 2).recordAll [("a", 5), ("b", 7), ("c", 1)]).bottom.records.length ≤ 2 :=
  C4_bounded_size 2 (DataStore.init 2) (new_eq_init 2 (by omega)) [("a", 5), ("b", 7), ("c", 1)]

/-- Witness for C5 at a concrete pool: the capacity-1 `Most` pool holding
difference 5 accepts the new difference 7 and evicts the smaller entry. -/
theorem C5_witness :
    (c1_pool.insert 7 1).2.records.length = c1_pool.bounds ∧
    (c1_pool.insert 7 1).2.smallest = minD (keys (c1_pool.insert 7 1).2.records) ∧
    (c1_pool.insert 7 1).2.largest = maxD (keys (c1_pool.insert 7 1).2.records) ∧
    (c1_pool.pool_type = PoolType.Most →
      ∃ v, (c1_pool.insert 7 1).1 = some (minD (keys (assocInsert c1_pool.records 7 1)), v) ∧
        (minD (keys (assocInsert c1_pool.records 7 1)), v) ∈ assocInsert c1_pool.records 7 1 ∧
        (c1_pool.insert 7 1).2.records
          = assocErase (assocInsert c1_pool.records 7 1)
              (minD (keys (assocInsert c1_pool.records 7 1)))) ∧
    (c1_pool.pool_type = PoolType.Least →
      ∃ v, (c1_pool.insert 7 1).1 = some (maxD (keys (assocInsert c1_pool.records 7 1)), v) ∧
        (maxD (keys (assocInsert c1_pool.records 7 1)), v) ∈ assocInsert c1_pool.records 7 1 ∧
        (c1_pool.insert 7 1).2.records
          = assocErase (assocInsert c1_pool.records 7 1)
              (maxD (keys (assocInsert c1_pool.records 7 1)))) :=
  C5_eviction_choice c1_pool 7 1 (by decide) (by decide) (by decide) (by decide) (by decide)

/-- The capacity-1 store after recording ("a", -5) and then ("b", -20): the
top pool holds (-5, 0) with stale cached bounds, the bottom pool holds
(-20, 1) with stale cached bounds. -/
def c6_store : DataStore := ((DataStore.init 1).recordDiff "a" (-5)).recordDiff "b" (-20)

/-- C6 counterexample: recording ("c", 7) on `c6_store` makes the top pool
evict (-5, 0); the bottom pool accepts the transfer and its insert itself
evicts (-5, 0) again — yet code 0 keeps use count 1 and description "a" stays
interned, because the source discards the transfer insert's return value and
never calls release. -/
theorem C6_counterexample :
    (c6_store.code_for_description "c").1 = 2 ∧
    ((c6_store.code_for_description "c").2.top.insert 7 2).1 = some (-5, 0) ∧
    c6_store.bottom.fits (-5) = true ∧
    (c6_store.bottom.insert (-5) 0).1 = some (-5, 0) ∧
    (c6_store.recordDiff "c" 7).top.records = [(7, 2)] ∧
    (c6_store.recordDiff "c" 7).bottom.records = [(-20, 1)] ∧
    assocLookup (c6_store.recordDiff "c" 7).code_use 0 = some 1 ∧
    assocLookup (c6_store.recordDiff "c" 7).descriptions "a" = some 0 := by
  decide

/-- C6 (amended): when a primary eviction is transferred into the opposite
pool, the source discards that insert's return value: even if the transfer
insert itself evicts a further entry, release is NOT called — the registry
maps and `next_code` after the call are exactly those left by the intern
step, and the further-evicted entry is silently dropped. -/
theorem C6_transfer_eviction_discarded (s : DataStore) (desc : String) (d : ℚ)
    (rep : ℚ × ℕ) :
    (s.top.fits d = true →
      ((s.code_for_description desc).2.top.insert d
        (s.code_for_description desc).1).1 = some rep →
      s.bottom.fits rep.1 = true →
      (s.recordDiff desc d).code_use = (s.code_for_description desc).2.code_use ∧
      (s.recordDiff desc d).descriptions = (s.code_for_description desc).2.descriptions ∧
      (s.recordDiff desc d).next_code = (s.code_for_description desc).2.next_code ∧
      (s.recordDiff desc d).bottom = (s.bottom.insert rep.1 rep.2).2) ∧
    (s.top.fits d = false →
      s.bottom.fits d = true →
      ((s.code_for_description desc).2.bottom.insert d
        (s.code_for_description desc).1).1 = some rep →
      s.top.fits rep.1 = true →
      (s.recordDiff desc d).code_use = (s.code_for_description desc).2.code_use ∧
      (s.recordDiff desc d).descriptions = (s.code_for_description desc).2.descriptions ∧
      (s.recordDiff desc d).next_code = (s.code_for_description desc).2.next_code ∧
      (s.recordDiff desc d).top = (s.top.insert rep.1 rep.2).2) := by
  constructor
  · intro hft hins hbf
    rw [recordDiff_top_some_fit s desc d rep hft hins hbf]
    exact ⟨rfl, rfl, rfl, rfl⟩
  · intro hft hbt hins htf
    rw [recordDiff_bottom_some_fit s desc d rep hft hbt hins htf]
    exact ⟨rfl, rfl, rfl, rfl⟩

/-- Witness for C6 (amended) at the concrete transfer-eviction scenario. -/
theorem C6_witness :
    (c6_store.recordDiff "c" 7).code_use = (c6_store.code_for_description "c").2.code_use ∧
    (c6_store.recordDiff "c" 7).descriptions
      = (c6_store.code_for_description "c").2.descriptions ∧
    (c6_store.recordDiff "c" 7).next_code
      = (c6_store.code_for_description "c").2.next_code ∧
    (c6_store.recordDiff "c" 7).bottom = (c6_store.bottom.insert (-5) 0).2 :=
  (C6_transfer_eviction_discarded c6_store "c" 7 (-5, 0)).1 (by decide) (by decide) (by decide)

/-- The `Most`-pool scenario of the source's `test_insert_with_most_pool`:
capacity 3, differences 1, 2, 3, 4, 5, 3.2 with codes 1..6 in order. -/
def c7_pool : RecordPool :=
  [((1 : ℚ), (1 : ℕ)), (2, 2), (3, 3), (4, 4), (5, 5), (dec32, 6)].foldl
    (fun p x => (p.insert x.1 x.2).2)
    { records := [], largest := 0, smallest := 0, bounds := 3,
      pool_type := PoolType.Most }

/-- C7: the capacity-3 `Most` pool fed 1, 2, 3, 4, 5, 3.2 (codes 1..6) ends
with exactly the entries 3.2, 4, 5, each keeping its insertion code;
ascending iteration yields 3.2, 4, 5 and reverse iteration 5, 4, 3.2. -/
theorem C7_concrete_scenario :
    c7_pool.records.length = 3 ∧
    c7_pool.ascList = [(dec32, 6), (4, 4), (5, 5)] ∧
    c7_pool.descList = [(5, 5), (4, 4), (dec32, 6)] := by
  decide

/-- C8: when a record's difference fits neither pool, the record call leaves
the whole store untouched — no interning, no count changes, no pool changes,
no code allocation. -/
theorem C8_no_side_effect (s : DataStore) (desc : String) (d : ℚ)
    (hft : s.top.fits d = false) (hbt : s.bottom.fits d = false) :
    s.recordDiff desc d = s :=
  recordDiff_nofit s desc d hft hbt

/-- The capacity-1 store after recording ("a", 10) then ("b", 20): the top
pool holds 20 with true bounds \{20, 20\}, the bottom pool holds 10 with stale
bounds 0; the difference 5 fits neither pool. -/
def c8_store : DataStore := ((DataStore.init 1).recordDiff "a" 10).recordDiff "b" 20

/-- Witness for C8: the concrete double-rejection scenario. -/
theorem C8_witness : c8_store.recordDiff "c" 5 = c8_store :=
  C8_no_side_effect c8_store "c" 5 (by decide) (by decide)

/-- C9: pool construction (and hence store construction) fails exactly at
capacity 0 and succeeds, with the documented initial state, for every
capacity N ≥ 1. -/
theorem C9_construction :
    (∀ t : PoolType, RecordPool.new 0 t
      = Except.error "Bounds for RecordPool cannot be 0") ∧
    (∃ e, DataStore.new 0 = Except.error e) ∧
    (∀ n, 1 ≤ n → ∀ t : PoolType,
      RecordPool.new n t
        = Except.ok { records := [], largest := 0, smallest := 0, bounds := n,
                      pool_type := t } ∧
      DataStore.new n = Except.ok (DataStore.init n)) := by
  refine ⟨fun t => rfl, ⟨"Bounds for RecordPool cannot be 0", rfl⟩, fun n hn t => ⟨?_, new_eq_init n hn⟩⟩
  rw [RecordPool.new, if_neg (by omega)]

/-- Witness for C9 at capacity 3. -/
theorem C9_witness :
    RecordPool.new 3 PoolType.Most
      = Except.ok { records := [], largest := 0, smallest := 0, bounds := 3,
                    pool_type := PoolType.Most } ∧
    DataStore.new 3 = Except.ok (DataStore.init 3) :=
  C9_construction.2.2 3 (by omega) PoolType.Most

/-- C10: a CSV record whose start price, end price or description field is
missing, or whose price fields fail decimal parsing, makes `DataStore::insert`
return an error with the store completely unchanged — all extraction and
parsing precede any mutation. -/
theorem C10_error_atomicity (parse : String → Option ℚ) (s : DataStore)
    (record : List String)
    (h : record.get? START_PRICE_INDEX = none
      ∨ (∃ f, record.get? START_PRICE_INDEX = some f ∧ parse f = none)
      ∨ record.get? END_PRICE_INDEX = none
      ∨ (∃ f, record.get? END_PRICE_INDEX = some f ∧ parse f = none)
      ∨ record.get? DESCRIPTION_INDEX = none) :
    (DataStore.insert parse s record).2 = s ∧
    ∃ e, (DataStore.insert parse s record).1 = Except.error e := by
  unfold DataStore.insert
  cases h2 : record.get? START_PRICE_INDEX with
  | none => exact ⟨rfl, _, rfl⟩
  | some sp =>
    dsimp only
    cases hp2 : parse sp with
    | none => exact ⟨rfl, _, rfl⟩
    | some v2 =>
      dsimp only
      cases h3 : record.get? END_PRICE_INDEX with
      | none => exact ⟨rfl, _, rfl⟩
      | some np =>
        dsimp only
        cases hp3 : parse np with
        | none => exact ⟨rfl, _, rfl⟩
        | some v3 =>
          dsimp only
          cases h0 : record.get? DESCRIPTION_INDEX with
          | none => exact ⟨rfl, _, rfl⟩
          | some de =>
            exfalso
            rcases h with h | ⟨f, hf, hpf⟩ | h | ⟨f, hf, hpf⟩ | h
            · rw [h2] at h
              cases h
            · rw [h2] at hf
              rw [Option.some.inj hf] at hp2
              rw [hp2] at hpf
              cases hpf
            · rw [h3] at h
              cases h
            · rw [h3] at hf
              rw [Option.some.inj hf] at hp3
              rw [hp3] at hpf
              cases hpf
            · rw [h0] at h
              cases h

/-- Witness for C10: inserting the empty record fails and changes nothing. -/
theorem C10_witness :
    (DataStore.insert (fun _ => some 0) (DataStore.init 1) []).2 = DataStore.init 1 ∧
    ∃ e, (DataStore.insert (fun _ => some 0) (DataStore.init 1) []).1 = Except.error e :=
  C10_error_atomicity (fun _ => some 0) (DataStore.init 1) [] (Or.inl rfl)

end Top10
